import Mathlib

/-!
Shallow embedding of a Wordle-solver program and proofs about it.

The program represents words as 5 bytes, clues as 5 markers in
{Black, Yellow, Green}, and its knowledge about the answer as a 5-slot
mask of confirmed letters (byte 0 meaning "unknown") together with a
per-letter tri-state status (in the word / not in the word / unknown),
stored in a 26-entry table indexed by `letter - 'a'`.

Bytes are modelled as `Nat`.  The 26-entry status table is modelled as a
total function from the letter index to a status; in the program an index
outside `0..25` is an out-of-bounds array access (a fatal error), and every
statement below that touches the table restricts letters to lowercase
bytes, for which all indices are in bounds.
-/

/-- A clue block: the per-position marker of a clue. -/
inductive Info
  | Black
  | Yellow
  | Green
  deriving DecidableEq

/-- A word is 5 bytes (`type Word = [u8; 5]`). -/
abbrev Word := Fin 5 → Nat

/-- A clue consists of 5 pieces of info (`type Clue = [Info; 5]`). -/
abbrev Clue := Fin 5 → Info

/-- `const A: u8 = 'a' as u8`. -/
def A : Nat := 97

/-- Tri-state knowledge about a single letter. -/
inductive LetterStatus
  | Yes
  | No
  | Unknown
  deriving DecidableEq

/-- The 26-entry status table `LettersContained([LetterStatus; 26])`,
modelled as a function from letter index (`letter - 'a'`) to status. -/
abbrev LettersContained := Nat → LetterStatus

/-- `fn u8_to_letter_index(x: u8) -> usize { (x - A) as usize }`. -/
def u8_to_letter_index (x : Nat) : Nat := x - A

/-- `LettersContained::possibly_contains`: a letter is potentially in the
word unless its status is `No`. -/
def possibly_contains (l : LettersContained) (x : Nat) : Bool :=
  match l (u8_to_letter_index x) with
  | .No => false
  | .Unknown | .Yes => true

/-- `LettersContained::mark_contains`: set the status of `x` to `Yes`. -/
def mark_contains (l : LettersContained) (x : Nat) : LettersContained :=
  fun j => if j = u8_to_letter_index x then .Yes else l j

/-- `LettersContained::mark_not_contains`: set the status of `x` to `No`. -/
def mark_not_contains (l : LettersContained) (x : Nat) : LettersContained :=
  fun j => if j = u8_to_letter_index x then .No else l j

/-- The state of our knowledge about the answer (`struct InfoState`).
`mask` holds the letters known for sure, with the non-alphabetic code
point 0 used for unknown spots. -/
@[ext]
structure InfoState where
  mask : Fin 5 → Nat
  letters : LettersContained

/-- `InfoState::consistent`: a word is a possible answer iff at every
confirmed position it matches the mask and at every unconfirmed position
its letter is possibly contained. -/
def InfoState.consistent (s : InfoState) (w : Word) : Bool :=
  (List.finRange 5).all fun i =>
    if s.mask i = 0 then possibly_contains s.letters (w i)
    else w i == s.mask i

/-- The loop body of `InfoState::update`'s second loop: record the status
of `guess[i]` dictated by `clue[i]`. -/
def upd_step (guess : Word) (c : Clue) (l : LettersContained) (i : Fin 5) :
    LettersContained :=
  match c i with
  | .Green | .Yellow => mark_contains l (guess i)
  | .Black => mark_not_contains l (guess i)

/-- `InfoState::update`: fill newly-confirmed Green positions into the
mask and overwrite the status of every guessed letter from its clue. -/
def InfoState.update (s : InfoState) (guess : Word) (c : Clue) : InfoState :=
  { mask := fun i =>
      if s.mask i ≠ 0 then s.mask i
      else if c i = Info.Green then guess i else 0,
    letters := (List.finRange 5).foldl (upd_step guess c) s.letters }

/-- The test `c == answer[0] || ... || c == answer[4]` (also the meaning
of `answer.contains(&c)` for a 5-byte array). -/
def word_has (w : Word) (c : Nat) : Bool :=
  c == w 0 || c == w 1 || c == w 2 || c == w 3 || c == w 4

/-- The loop body of `InfoState::update_from_answer`'s letter loop: record
whether `guess[i]` occurs anywhere in the answer. -/
def ufa_step (guess answer : Word) (l : LettersContained) (i : Fin 5) :
    LettersContained :=
  if word_has answer (guess i) then mark_contains l (guess i)
  else mark_not_contains l (guess i)

/-- `InfoState::update_from_answer`: like `update`, but driven by full
knowledge of a hypothetical answer. -/
def InfoState.update_from_answer (s : InfoState) (guess answer : Word) :
    InfoState :=
  { letters := (List.finRange 5).foldl (ufa_step guess answer) s.letters,
    mask := fun i =>
      if s.mask i ≠ 0 then s.mask i
      else if guess i = answer i then guess i else 0 }

/-- `InfoState::new`: mask all-unknown, all letters Unknown. -/
def InfoState.new : InfoState :=
  { letters := fun _ => .Unknown, mask := fun _ => 0 }

/-- `fn clue(guess, answer)`: position `i` is Green on an exact match,
Yellow when the guessed letter occurs anywhere in the answer, else Black. -/
def clue (guess answer : Word) : Clue := fun i =>
  if guess i = answer i then .Green
  else if word_has answer (guess i) then .Yellow
  else .Black

/-- `fn remaining_possibilities`: how many pool words stay consistent
after updating from the hypothetical answer. -/
def remaining_possibilities (info : InfoState) (guess actual_answer : Word)
    (possible_answers : List Word) : Nat :=
  let info := info.update_from_answer guess actual_answer
  (possible_answers.filter fun a => info.consistent a).length

/-- `fn unnormalized_expected_remaining_possibilities`: the sum over all
hypothetical answers of the remaining possibilities. -/
def unnormalized_expected_remaining_possibilities (info : InfoState)
    (guess : Word) (possible_answers : List Word) : Nat :=
  (possible_answers.map fun a =>
    remaining_possibilities info guess a possible_answers).sum

/-- One step of `min_by_key` on scores: keep the accumulator unless the
new element's score is strictly smaller (ties keep the earlier element,
matching `min_by_key` semantics). -/
def minByStep (best p : Word × Nat) : Word × Nat :=
  if p.2 < best.2 then p else best

/-- The guess-selection code of `main`: score every pool member and take
the one with minimal score (`scored_guesses.min_by_key`), `none` when the
pool is empty (where the program's `.unwrap()` panics). -/
def select_next_guess (info : InfoState) (pool : List Word) : Option Word :=
  match pool.map fun g =>
      (g, unnormalized_expected_remaining_possibilities info g pool) with
  | [] => none
  | x :: xs => some (xs.foldl minByStep x).1

/-- One record of the word-list file: the program reads `s[i + j]` for
`j = 0..4`, which is in bounds exactly when `i + 4 < s.len()`; otherwise
it is a fatal out-of-bounds error, modelled as `none`. -/
def readWordAt (s : List Nat) (i : Nat) : Option Word :=
  if h : i + 4 < s.length then
    some fun j => s.get ⟨i + j.1, by have hj := j.isLt; omega⟩
  else none

/-- The word-list parsing loop of `main`: push the record at `i`, advance
by 6, stop once `i >= s.len()`. The loop body always runs at least once. -/
def parseLoop (s : List Nat) (i : Nat) (acc : List Word) :
    Option (List Word) :=
  match readWordAt s i with
  | none => none
  | some w =>
    if h : i + 6 ≥ s.length then some (acc ++ [w])
    else parseLoop s (i + 6) (acc ++ [w])
termination_by s.length - i
decreasing_by
  simp at h
  omega

/-- Parsing the whole word-list file, starting at byte 0. -/
def parseWords (s : List Nat) : Option (List Word) :=
  parseLoop s 0 []

/-- A lowercase letter byte, `'a' ≤ c ≤ 'z'`. -/
def is_lower (c : Nat) : Prop := A ≤ c ∧ c ≤ 122

instance (c : Nat) : Decidable (is_lower c) := by
  unfold is_lower; infer_instance

/-- A word all of whose bytes are lowercase letters. -/
def LowercaseWord (w : Word) : Prop := ∀ i : Fin 5, is_lower (w i)

instance (w : Word) : Decidable (LowercaseWord w) := by
  unfold LowercaseWord; infer_instance

/-- Build a concrete word from its five bytes. -/
def mkWord (a b c d e : Nat) : Word := fun i =>
  match i with
  | ⟨0, _⟩ => a
  | ⟨1, _⟩ => b
  | ⟨2, _⟩ => c
  | ⟨3, _⟩ => d
  | ⟨4, _⟩ => e

/-- Build a concrete clue from its five markers. -/
def mkClue (a b c d e : Info) : Clue := fun i =>
  match i with
  | ⟨0, _⟩ => a
  | ⟨1, _⟩ => b
  | ⟨2, _⟩ => c
  | ⟨3, _⟩ => d
  | ⟨4, _⟩ => e

/-- The word "abcde". -/
def wABCDE : Word := mkWord 97 98 99 100 101

/-- The word "fghij". -/
def wFGHIJ : Word := mkWord 102 103 104 105 106

/-- The word "vwxyz". -/
def wVWXYZ : Word := mkWord 118 119 120 121 122

/-- The word "aabcd". -/
def wAABCD : Word := mkWord 97 97 98 99 100

/-- An all-Green clue. -/
def cAllGreen : Clue := mkClue .Green .Green .Green .Green .Green

/-- An all-Yellow clue. -/
def cAllYellow : Clue := mkClue .Yellow .Yellow .Yellow .Yellow .Yellow

/-- An all-Black clue. -/
def cAllBlack : Clue := mkClue .Black .Black .Black .Black .Black

/-- Green then four Blacks. -/
def cGBBBB : Clue := mkClue .Green .Black .Black .Black .Black

/-! ## Helper lemmas -/

/-- `possibly_contains` is exactly "status is not `No`". -/
theorem possibly_contains_iff (l : LettersContained) (x : Nat) :
    possibly_contains l x = true ↔ l (u8_to_letter_index x) ≠ .No := by
  unfold possibly_contains
  rcases h : l (u8_to_letter_index x) <;> simp [h]

/-- Unfolding of the consistency check into its two constraints. -/
theorem consistent_iff (s : InfoState) (w : Word) :
    s.consistent w = true ↔ ∀ i : Fin 5,
      (s.mask i ≠ 0 → w i = s.mask i) ∧
      (s.mask i = 0 → s.letters (u8_to_letter_index (w i)) ≠ .No) := by
  unfold InfoState.consistent
  rw [List.all_eq_true]
  constructor
  · intro h i
    have hi := h i (List.mem_finRange i)
    by_cases hm : s.mask i = 0
    · rw [if_pos hm] at hi
      exact ⟨fun hne => absurd hm hne, fun _ => (possibly_contains_iff _ _).mp hi⟩
    · rw [if_neg hm] at hi
      simp only [beq_iff_eq] at hi
      exact ⟨fun _ => hi, fun h0 => absurd h0 hm⟩
  · intro h i _
    by_cases hm : s.mask i = 0
    · rw [if_pos hm]
      exact (possibly_contains_iff _ _).mpr ((h i).2 hm)
    · rw [if_neg hm]
      simp only [beq_iff_eq]
      exact (h i).1 hm

/-- Lowercase bytes with equal letter indices are equal. -/
theorem letter_index_inj {x y : Nat} (hx : is_lower x) (hy : is_lower y)
    (h : u8_to_letter_index x = u8_to_letter_index y) : x = y := by
  unfold is_lower A at hx hy
  unfold u8_to_letter_index A at h
  omega

/-! ## Claims -/

/-- Claim C10: the freshly created empty knowledge state (mask all-unknown,
every letter status Unknown) rejects no lowercase candidate word. -/
theorem new_state_consistent (w : Word) (_h : LowercaseWord w) :
    InfoState.new.consistent w = true := by
  rw [consistent_iff]
  intro i
  constructor
  · intro hne
    exact absurd rfl hne
  · intro _
    simp [InfoState.new]

/-- Witness for C10 at the concrete word "abcde". -/
theorem new_state_consistent_w : InfoState.new.consistent wABCDE = true :=
  new_state_consistent wABCDE (by decide)

/-- Claim C3: a confirmed (nonzero) mask entry survives both update
operations unchanged, for any guess, clue and hypothetical answer. -/
theorem mask_confirmed_stable (s : InfoState) (g a : Word) (c : Clue)
    (i : Fin 5) (h : s.mask i ≠ 0) :
    (s.update g c).mask i = s.mask i ∧
      (s.update_from_answer g a).mask i = s.mask i := by
  constructor <;> simp [InfoState.update, InfoState.update_from_answer, h]

/-- Witness for C3: after confirming "abcde" via an all-Green clue,
position 0 of the mask survives a further update and a further
update-from-answer. -/
theorem mask_confirmed_stable_w :
    ((InfoState.new.update wABCDE cAllGreen).update wFGHIJ cAllBlack).mask 0 =
        (InfoState.new.update wABCDE cAllGreen).mask 0 ∧
      ((InfoState.new.update wABCDE cAllGreen).update_from_answer wFGHIJ
          wABCDE).mask 0 =
        (InfoState.new.update wABCDE cAllGreen).mask 0 :=
  mask_confirmed_stable (InfoState.new.update wABCDE cAllGreen) wFGHIJ wABCDE
    cAllBlack 0 (by decide)

/-- Claim C2: guessing the true answer from the empty state leaves the
answer itself consistent: `update(emptyState, w, clue(w, w)).consistent w`. -/
theorem after_true_guess_consistent (w : Word) (h : LowercaseWord w) :
    (InfoState.new.update w (clue w w)).consistent w = true := by
  rw [consistent_iff]
  intro i
  have hmask : (InfoState.new.update w (clue w w)).mask i = w i := by
    simp [InfoState.update, InfoState.new, clue]
  refine ⟨fun _ => hmask.symm, fun h0 => ?_⟩
  rw [hmask] at h0
  have := (h i).1
  unfold A at this
  omega

/-- Witness for C2 at the concrete word "abcde". -/
theorem after_true_guess_consistent_w :
    (InfoState.new.update wABCDE (clue wABCDE wABCDE)).consistent wABCDE =
      true :=
  after_true_guess_consistent wABCDE (by decide)

/-- Claim C6: with the empty state, pool {"abcde", "fghij"}, guess "abcde"
and hypothetical answer "fghij" (disjoint letters), exactly one word
remains consistent. -/
theorem remaining_possibilities_disjoint_pair :
    remaining_possibilities InfoState.new wABCDE wFGHIJ [wABCDE, wFGHIJ] =
      1 := by
  decide

/-- Claim C5: the consistency predicate enforces exactly the positional
constraints and the absence of `No`-letters at unconfirmed positions; in
particular a state that marks 'z' as Present still accepts "abcde",
which does not contain 'z'. -/
theorem consistent_only_positional_negative :
    (∀ (s : InfoState) (w : Word), s.consistent w = true ↔
      ∀ i : Fin 5, (s.mask i ≠ 0 → w i = s.mask i) ∧
        (s.mask i = 0 → s.letters (u8_to_letter_index (w i)) ≠ .No)) ∧
    ((InfoState.new.update wVWXYZ cAllYellow).letters
        (u8_to_letter_index 122) = .Yes ∧
      (∀ i : Fin 5, wABCDE i ≠ 122) ∧
      (InfoState.new.update wVWXYZ cAllYellow).consistent wABCDE = true) :=
  ⟨consistent_iff, by decide⟩

/-- A word always has the letter standing at any of its own positions. -/
theorem word_has_apply (a : Word) (i : Fin 5) : word_has a (a i) = true := by
  fin_cases i <;> simp [word_has]

/-- The two per-position letter updates agree once the clue is derived
from the answer. -/
theorem ufa_step_eq_upd_step (g a : Word) (l : LettersContained)
    (i : Fin 5) : ufa_step g a l i = upd_step g (clue g a) l i := by
  unfold ufa_step upd_step clue
  by_cases h : g i = a i
  · have hw : word_has a (a i) = true := word_has_apply a i
    simp [h, hw]
  · by_cases hw : word_has a (g i) = true
    · simp [h, hw]
    · simp [h, hw]

/-- Claim C8: `update_from_answer` coincides with `update` through the
clue derivation, in both the mask and the per-letter statuses. -/
theorem update_from_answer_eq_update (s : InfoState) (g a : Word) :
    s.update_from_answer g a = s.update g (clue g a) := by
  refine InfoState.ext ?_ ?_
  · funext i
    simp only [InfoState.update_from_answer, InfoState.update]
    congr 1
    by_cases h : g i = a i
    · simp [clue, h]
    · by_cases hw : word_has a (g i) = true <;> simp [clue, h, hw]
  · simp only [InfoState.update_from_answer, InfoState.update]
    exact List.foldl_ext _ _ _ fun l j _ => ufa_step_eq_upd_step g a l j

/-- The answer-driven letter fold never turns a non-`No` entry into `No`
at an index at which it only records contained letters. -/
theorem ufa_fold_keeps_not_no (g a : Word) (l : List (Fin 5))
    (ℓ : LettersContained) (ix : Nat) (h0 : ℓ ix ≠ .No)
    (h : ∀ j ∈ l, u8_to_letter_index (g j) = ix → word_has a (g j) = true) :
    (l.foldl (ufa_step g a) ℓ) ix ≠ .No := by
  induction l generalizing ℓ with
  | nil => exact h0
  | cons j t ih =>
    rw [List.foldl_cons]
    apply ih
    · unfold ufa_step
      by_cases hw : word_has a (g j) = true
      · rw [if_pos hw]
        simp only [mark_contains]
        by_cases hix : ix = u8_to_letter_index (g j)
        · rw [if_pos hix]
          simp
        · rw [if_neg hix]
          exact h0
      · have hne : u8_to_letter_index (g j) ≠ ix := fun he =>
          hw (h j (List.mem_cons_self j t) he)
        rw [if_neg hw]
        simp only [mark_not_contains]
        rw [if_neg fun hix : ix = u8_to_letter_index (g j) => hne hix.symm]
        exact h0
    · exact fun k hk hke => h k (List.mem_cons_of_mem _ hk) hke

/-- Claim C9: when the hypothetical answer is itself a pool member
consistent with the current state, it survives its own simulated update,
so `remaining_possibilities` is at least 1. -/
theorem remaining_possibilities_pos (s : InfoState) (pool : List Word)
    (g a : Word) (hg : LowercaseWord g) (ha : LowercaseWord a)
    (hmem : a ∈ pool) (hcons : s.consistent a = true) :
    1 ≤ remaining_possibilities s g a pool := by
  have hc := (consistent_iff s a).mp hcons
  have hcons' : (s.update_from_answer g a).consistent a = true := by
    rw [consistent_iff]
    intro i
    by_cases hm : s.mask i = 0
    · by_cases he : g i = a i
      · have hmask : (s.update_from_answer g a).mask i = g i := by
          simp [InfoState.update_from_answer, hm, he]
        refine ⟨fun _ => by rw [hmask]; exact he.symm, fun h0 => ?_⟩
        rw [hmask] at h0
        have hl : 97 ≤ g i := (hg i).1
        omega
      · have hmask : (s.update_from_answer g a).mask i = 0 := by
          simp [InfoState.update_from_answer, hm, he]
        refine ⟨fun hne => absurd hmask hne, fun _ => ?_⟩
        show (s.update_from_answer g a).letters
            (u8_to_letter_index (a i)) ≠ .No
        have hletters : (s.update_from_answer g a).letters =
            (List.finRange 5).foldl (ufa_step g a) s.letters := rfl
        rw [hletters]
        apply ufa_fold_keeps_not_no
        · exact (hc i).2 hm
        · intro j _ hje
          have hja : g j = a i := letter_index_inj (hg j) (ha i) hje
          rw [hja]
          exact word_has_apply a i
    · have hmask : (s.update_from_answer g a).mask i = s.mask i := by
        simp [InfoState.update_from_answer, hm]
      constructor
      · intro _
        rw [hmask]
        exact (hc i).1 hm
      · intro h0
        rw [hmask] at h0
        exact absurd h0 hm
  show 1 ≤ (pool.filter fun w =>
    (s.update_from_answer g a).consistent w).length
  exact List.length_pos_of_mem (List.mem_filter.mpr ⟨hmem, hcons'⟩)

/-- Witness for C9 with the singleton pool {"abcde"} and the empty state. -/
theorem remaining_possibilities_pos_w :
    1 ≤ remaining_possibilities InfoState.new wABCDE wABCDE [wABCDE] :=
  remaining_possibilities_pos InfoState.new [wABCDE] wABCDE wABCDE
    (by decide) (by decide) (by simp) (by decide)

/-- The clue-driven letter fold leaves untouched every index that none of
the folded positions writes to. -/
theorem foldl_upd_untouched (g : Word) (c : Clue) (l : List (Fin 5))
    (ℓ : LettersContained) (ix : Nat)
    (h : ∀ j ∈ l, u8_to_letter_index (g j) ≠ ix) :
    (l.foldl (upd_step g c) ℓ) ix = ℓ ix := by
  induction l generalizing ℓ with
  | nil => rfl
  | cons j t ih =>
    rw [List.foldl_cons, ih _ fun k hk => h k (List.mem_cons_of_mem _ hk)]
    have hj : u8_to_letter_index (g j) ≠ ix := h j (List.mem_cons_self j t)
    cases hc : c j <;>
      simp only [upd_step, hc, mark_contains, mark_not_contains] <;>
      rw [if_neg fun hix : ix = u8_to_letter_index (g j) => hj hix.symm]

/-- One step of the clue-driven letter fold writes, at the index of the
letter guessed at that position, `No` for Black and `Yes` otherwise. -/
theorem upd_step_writes (g : Word) (c : Clue) (ℓ : LettersContained)
    (j : Fin 5) :
    (upd_step g c ℓ j) (u8_to_letter_index (g j)) =
      (if c j = Info.Black then LetterStatus.No else LetterStatus.Yes) := by
  cases hc : c j <;> simp [upd_step, hc, mark_contains, mark_not_contains]

/-- Claim C4: when a guess repeats a letter `x` and the clue gives its
occurrences differing values, the resulting per-letter status of `x` is
the one dictated by the clue at the highest-indexed occurrence `i`
(last-write-wins): `No` for Black, `Yes` for Green or Yellow. -/
theorem update_letters_last_write (s : InfoState) (g : Word) (c : Clue)
    (x : Nat) (i j : Fin 5) (hg : LowercaseWord g)
    (hgi : g i = x) (hlast : ∀ k : Fin 5, i < k → g k ≠ x)
    (hdup : j < i) (hdupx : g j = x) (hdiff : c j ≠ c i) :
    (s.update g c).letters (u8_to_letter_index x) =
      (if c i = Info.Black then LetterStatus.No else LetterStatus.Yes) := by
  have hx : is_lower x := hgi ▸ hg i
  have hlet : (s.update g c).letters =
      (List.finRange 5).foldl (upd_step g c) s.letters := rfl
  have hne : ∀ k : Fin 5, i < k →
      u8_to_letter_index (g k) ≠ u8_to_letter_index x :=
    fun k hk he => hlast k hk (letter_index_inj (hg k) hx he)
  rw [hlet]
  fin_cases i
  · have hsplit : List.finRange 5 = [] ++ (0 : Fin 5) :: [1, 2, 3, 4] := by
      decide
    have hside : ∀ k ∈ ([1, 2, 3, 4] : List (Fin 5)),
        u8_to_letter_index (g k) ≠ u8_to_letter_index x := by
      intro k hk
      apply hne k
      fin_cases hk <;> decide
    rw [hsplit, List.foldl_append, List.foldl_cons,
      foldl_upd_untouched g c _ _ _ hside, ← hgi]
    exact upd_step_writes g c _ _
  · have hsplit : List.finRange 5 = [0] ++ (1 : Fin 5) :: [2, 3, 4] := by
      decide
    have hside : ∀ k ∈ ([2, 3, 4] : List (Fin 5)),
        u8_to_letter_index (g k) ≠ u8_to_letter_index x := by
      intro k hk
      apply hne k
      fin_cases hk <;> decide
    rw [hsplit, List.foldl_append, List.foldl_cons,
      foldl_upd_untouched g c _ _ _ hside, ← hgi]
    exact upd_step_writes g c _ _
  · have hsplit : List.finRange 5 = [0, 1] ++ (2 : Fin 5) :: [3, 4] := by
      decide
    have hside : ∀ k ∈ ([3, 4] : List (Fin 5)),
        u8_to_letter_index (g k) ≠ u8_to_letter_index x := by
      intro k hk
      apply hne k
      fin_cases hk <;> decide
    rw [hsplit, List.foldl_append, List.foldl_cons,
      foldl_upd_untouched g c _ _ _ hside, ← hgi]
    exact upd_step_writes g c _ _
  · have hsplit : List.finRange 5 = [0, 1, 2] ++ (3 : Fin 5) :: [4] := by
      decide
    have hside : ∀ k ∈ ([4] : List (Fin 5)),
        u8_to_letter_index (g k) ≠ u8_to_letter_index x := by
      intro k hk
      apply hne k
      fin_cases hk <;> decide
    rw [hsplit, List.foldl_append, List.foldl_cons,
      foldl_upd_untouched g c _ _ _ hside, ← hgi]
    exact upd_step_writes g c _ _
  · have hsplit : List.finRange 5 = [0, 1, 2, 3] ++ (4 : Fin 5) :: [] := by
      decide
    have hside : ∀ k ∈ ([] : List (Fin 5)),
        u8_to_letter_index (g k) ≠ u8_to_letter_index x := by
      intro k hk
      cases hk
    rw [hsplit, List.foldl_append, List.foldl_cons,
      foldl_upd_untouched g c _ _ _ hside, ← hgi]
    exact upd_step_writes g c _ _

/-- Witness for C4: guessing "aabcd" with clue Green-Black-Black-Black-
Black, the repeated letter 'a' gets differing values at positions 0 and 1,
and the status recorded for 'a' is the position-1 (Black) one. -/
theorem update_letters_last_write_w :
    (InfoState.new.update wAABCD cGBBBB).letters (u8_to_letter_index 97) =
      (if cGBBBB 1 = Info.Black then LetterStatus.No else LetterStatus.Yes) :=
  update_letters_last_write InfoState.new wAABCD cGBBBB 97 1 0
    (by decide) (by decide) (by decide) (by decide) (by decide) (by decide)

/-- The fold implementing `min_by_key` returns an element of the list
whose key is minimal, and every element strictly before it in the list
has a strictly larger key (ties keep the earliest element). -/
theorem foldl_minByStep_spec (xs : List (Word × Nat)) (x : Word × Nat) :
    ∃ l₁ l₂, x :: xs = l₁ ++ (xs.foldl minByStep x) :: l₂ ∧
      (∀ z ∈ l₁, (xs.foldl minByStep x).2 < z.2) ∧
      ∀ z ∈ x :: xs, (xs.foldl minByStep x).2 ≤ z.2 := by
  induction xs generalizing x with
  | nil => exact ⟨[], [], rfl, by simp, by simp⟩
  | cons p t ih =>
    rw [List.foldl_cons]
    by_cases hp : p.2 < x.2
    · have hstep : minByStep x p = p := by simp [minByStep, hp]
      rw [hstep]
      obtain ⟨l₁, l₂, heq, hlt, hle⟩ := ih p
      have hrp : (t.foldl minByStep p).2 ≤ p.2 :=
        hle p (List.mem_cons_self p t)
      refine ⟨x :: l₁, l₂, ?_, ?_, ?_⟩
      · rw [List.cons_append, ← heq]
      · intro z hz
        rcases List.mem_cons.mp hz with rfl | hz'
        · exact lt_of_le_of_lt hrp hp
        · exact hlt z hz'
      · intro z hz
        rcases List.mem_cons.mp hz with rfl | hz'
        · exact le_of_lt (lt_of_le_of_lt hrp hp)
        · exact hle z hz'
    · have hstep : minByStep x p = x := by simp [minByStep, hp]
      rw [hstep]
      obtain ⟨l₁, l₂, heq, hlt, hle⟩ := ih x
      cases l₁ with
      | nil =>
        simp only [List.nil_append] at heq
        injection heq with hx hl
        refine ⟨[], p :: t, ?_, by simp, ?_⟩
        · rw [List.nil_append, ← hx]
        · intro z hz
          rcases List.mem_cons.mp hz with rfl | hz'
          · rw [← hx]
          · rcases List.mem_cons.mp hz' with rfl | hz''
            · rw [← hx]
              exact le_of_not_lt hp
            · exact hle z (List.mem_cons_of_mem _ hz'')
      | cons q t₁ =>
        rw [List.cons_append] at heq
        injection heq with hq ht
        refine ⟨x :: p :: t₁, l₂, ?_, ?_, ?_⟩
        · rw [List.cons_append, List.cons_append, ← ht]
        · intro z hz
          have hrx : (t.foldl minByStep x).2 < x.2 := by
            have hq' := hlt q (List.mem_cons_self q t₁)
            rw [← hq] at hq'
            exact hq'
          rcases List.mem_cons.mp hz with rfl | hz'
          · exact hrx
          · rcases List.mem_cons.mp hz' with rfl | hz''
            · exact lt_of_lt_of_le hrx (le_of_not_lt hp)
            · exact hlt z (List.mem_cons_of_mem _ hz'')
        · intro z hz
          rcases List.mem_cons.mp hz with rfl | hz'
          · exact hle _ (List.mem_cons_self _ _)
          · rcases List.mem_cons.mp hz' with rfl | hz''
            · exact le_trans (hle _ (List.mem_cons_self _ _))
                (le_of_not_lt hp)
            · exact hle z (List.mem_cons_of_mem _ hz'')

/-- A splitting of a mapped list induces a splitting of the original. -/
theorem map_split_cons {f : Word → Word × Nat} {l : List Word}
    {s₁ : List (Word × Nat)} {y : Word × Nat} {s₂ : List (Word × Nat)}
    (h : l.map f = s₁ ++ y :: s₂) :
    ∃ m₁ w m₂, l = m₁ ++ w :: m₂ ∧ m₁.map f = s₁ ∧ f w = y ∧
      m₂.map f = s₂ := by
  induction s₁ generalizing l with
  | nil =>
    cases l with
    | nil => simp at h
    | cons a l' =>
      rw [List.map_cons] at h
      simp only [List.nil_append] at h
      injection h with h1 h2
      exact ⟨[], a, l', by simp, rfl, h1, h2⟩
  | cons z s₁' ih =>
    cases l with
    | nil => simp at h
    | cons a l' =>
      rw [List.map_cons, List.cons_append] at h
      injection h with h1 h2
      obtain ⟨m₁, w, m₂, e1, e2, e3, e4⟩ := ih h2
      exact ⟨a :: m₁, w, m₂, by rw [List.cons_append, e1],
        by rw [List.map_cons, e2, h1], e3, e4⟩

/-- Claim C1: on a non-empty pool, `select_next_guess` returns the pool
member with minimal score, with ties broken in favor of the first minimal
element in pool order (all earlier elements score strictly higher); being
a function of the state and the pool list, it is deterministic. -/
theorem select_next_guess_min (info : InfoState) (pool : List Word)
    (h : pool ≠ []) :
    ∃ g l₁ l₂, select_next_guess info pool = some g ∧
      pool = l₁ ++ g :: l₂ ∧
      (∀ w ∈ pool,
        unnormalized_expected_remaining_possibilities info g pool ≤
          unnormalized_expected_remaining_possibilities info w pool) ∧
      ∀ w ∈ l₁,
        unnormalized_expected_remaining_possibilities info g pool <
          unnormalized_expected_remaining_possibilities info w pool := by
  obtain ⟨g₀, ps, rfl⟩ := List.exists_cons_of_ne_nil h
  have hsel : select_next_guess info (g₀ :: ps) =
      some (((ps.map fun w =>
          (w, unnormalized_expected_remaining_possibilities info w
            (g₀ :: ps))).foldl minByStep
        (g₀, unnormalized_expected_remaining_possibilities info g₀
          (g₀ :: ps))).1) := rfl
  obtain ⟨l₁, l₂, heq, hlt, hle⟩ :=
    foldl_minByStep_spec
      (ps.map fun w =>
        (w, unnormalized_expected_remaining_possibilities info w (g₀ :: ps)))
      (g₀, unnormalized_expected_remaining_possibilities info g₀ (g₀ :: ps))
  have heq' : (g₀ :: ps).map (fun w =>
      (w, unnormalized_expected_remaining_possibilities info w (g₀ :: ps))) =
      l₁ ++ ((ps.map fun w =>
          (w, unnormalized_expected_remaining_possibilities info w
            (g₀ :: ps))).foldl minByStep
        (g₀, unnormalized_expected_remaining_possibilities info g₀
          (g₀ :: ps))) :: l₂ := by
    rw [List.map_cons]
    exact heq
  obtain ⟨m₁, w, m₂, he1, he2, he3, he4⟩ := map_split_cons heq'
  have hw1 : ((ps.map fun w =>
      (w, unnormalized_expected_remaining_possibilities info w
        (g₀ :: ps))).foldl minByStep
    (g₀, unnormalized_expected_remaining_possibilities info g₀
      (g₀ :: ps))).1 = w := by
    rw [← he3]
  have hw2 : ((ps.map fun w =>
      (w, unnormalized_expected_remaining_possibilities info w
        (g₀ :: ps))).foldl minByStep
    (g₀, unnormalized_expected_remaining_possibilities info g₀
      (g₀ :: ps))).2 =
      unnormalized_expected_remaining_possibilities info w (g₀ :: ps) := by
    rw [← he3]
  refine ⟨w, m₁, m₂, ?_, he1, ?_, ?_⟩
  · rw [hsel, hw1]
  · intro u hu
    have hmem : (fun w =>
        (w, unnormalized_expected_remaining_possibilities info w
          (g₀ :: ps))) u ∈
        ((g₀, unnormalized_expected_remaining_possibilities info g₀
            (g₀ :: ps)) ::
          ps.map fun w =>
            (w, unnormalized_expected_remaining_possibilities info w
              (g₀ :: ps))) := by
      have hm := List.mem_map_of_mem (fun w =>
        (w, unnormalized_expected_remaining_possibilities info w
          (g₀ :: ps))) hu
      rw [List.map_cons] at hm
      exact hm
    have h2 := hle _ hmem
    rw [hw2] at h2
    exact h2
  · intro u hu
    have hmem : (fun w =>
        (w, unnormalized_expected_remaining_possibilities info w
          (g₀ :: ps))) u ∈ l₁ := by
      rw [← he2]
      exact List.mem_map_of_mem _ hu
    have h2 := hlt _ hmem
    rw [hw2] at h2
    exact h2

/-- Witness for C1 on the concrete pool {"abcde", "fghij"} from the
empty state. -/
theorem select_next_guess_min_w :
    ∃ g l₁ l₂,
      select_next_guess InfoState.new [wABCDE, wFGHIJ] = some g ∧
      [wABCDE, wFGHIJ] = l₁ ++ g :: l₂ ∧
      (∀ w ∈ [wABCDE, wFGHIJ],
        unnormalized_expected_remaining_possibilities InfoState.new g
            [wABCDE, wFGHIJ] ≤
          unnormalized_expected_remaining_possibilities InfoState.new w
            [wABCDE, wFGHIJ]) ∧
      ∀ w ∈ l₁,
        unnormalized_expected_remaining_possibilities InfoState.new g
            [wABCDE, wFGHIJ] <
          unnormalized_expected_remaining_possibilities InfoState.new w
            [wABCDE, wFGHIJ] :=
  select_next_guess_min InfoState.new [wABCDE, wFGHIJ] (by simp)

/-- When the bytes left from position `i` number 1 to 4 modulo 6, the
parsing loop eventually reads past the end of the file: it aborts. -/
theorem parseLoop_short_none (s : List Nat) (i : Nat) (acc : List Word)
    (h1 : 1 ≤ (s.length - i) % 6) (h2 : (s.length - i) % 6 ≤ 4) :
    parseLoop s i acc = none := by
  rw [parseLoop.eq_def]
  split
  · rfl
  · next w hread =>
    have hi : i + 4 < s.length := by
      by_contra hc
      rw [readWordAt, dif_neg hc] at hread
      exact Option.noConfusion hread
    rw [dif_neg (by omega : ¬ i + 6 ≥ s.length)]
    exact parseLoop_short_none s (i + 6) (acc ++ [w]) (by omega) (by omega)
termination_by s.length - i
decreasing_by omega

/-- When the bytes left from position `i` number 5 modulo 6, the parsing
loop runs to completion: the final 5-byte chunk still fits the 5 indexed
accesses and the loop then stops. -/
theorem parseLoop_mod5_isSome (s : List Nat) (i : Nat) (acc : List Word)
    (h1 : (s.length - i) % 6 = 5) :
    (parseLoop s i acc).isSome = true := by
  have hi : i + 4 < s.length := by omega
  rw [parseLoop.eq_def]
  split
  · next hread =>
    rw [readWordAt, dif_pos hi] at hread
    exact Option.noConfusion hread
  · next w hread =>
    by_cases hstop : i + 6 ≥ s.length
    · rw [dif_pos hstop]
      rfl
    · rw [dif_neg hstop]
      exact parseLoop_mod5_isSome s (i + 6) (acc ++ [w]) (by omega)
termination_by s.length - i
decreasing_by omega

/-- Counterexample to C7 as stated: the 11-byte file "abcde\nfghij" ends
in a final record of only 5 bytes — shorter than the 6-byte record
layout — yet parsing succeeds instead of hitting the out-of-bounds
fatal error. -/
theorem parse_short_final_record_no_error :
    ([97, 98, 99, 100, 101, 10, 102, 103, 104, 105, 106] :
        List Nat).length = 11 ∧
      (parseWords
        [97, 98, 99, 100, 101, 10, 102, 103, 104, 105, 106]).isSome =
        true :=
  ⟨rfl, parseLoop_mod5_isSome _ 0 [] (by decide)⟩

/-- Claim C7 (amended): a final record of 1 to 4 bytes causes the
out-of-bounds fatal error, while a final record of exactly 5 bytes (a
record merely missing its separator byte) parses without error. -/
theorem parse_truncated_final_record (s : List Nat) :
    (1 ≤ s.length % 6 → s.length % 6 ≤ 4 → parseWords s = none) ∧
      (s.length % 6 = 5 → (parseWords s).isSome = true) := by
  constructor
  · intro h1 h2
    exact parseLoop_short_none s 0 [] (by simpa using h1) (by simpa using h2)
  · intro h5
    exact parseLoop_mod5_isSome s 0 [] (by simpa using h5)

/-- Witness for the amended C7: a 1-byte file aborts, a 5-byte file
parses. -/
theorem parse_truncated_final_record_w :
    parseWords [97] = none ∧
      (parseWords [97, 98, 99, 100, 101]).isSome = true :=
  ⟨(parse_truncated_final_record [97]).1 (by decide) (by decide),
    (parse_truncated_final_record [97, 98, 99, 100, 101]).2 (by decide)⟩
